import Mathlib

/-!
# Verification of the `BitReader` bit-level reader (`src/bitio.rs`)

Shallow embedding of the bitwise reader of the repository.  The Rust
`BitReader<R>` wraps an abstract byte source; we model the source as the list
of bytes it still has to deliver.  Machine integers (`u32`, `i32`, `u64`,
`usize`) are modelled as `Nat` with explicit `% 2 ^ w` wrapping at every
operation where the Rust value could exceed the width, matching the
two's-complement / wrapping semantics of the compiled (release) code; `i32`
values are carried as their 32-bit patterns and interpreted by `toI32` at the
end.  Fallible operations return `Option`; the `&mut self` receiver is made
explicit, so every primitive returns its result together with the updated
reader state (also on failure, since the Rust reader keeps its partially
advanced state when a read fails).
-/

namespace Av1

/-- State of `BitReader` (src/bitio.rs lines 33-38): `input` is the byte
sequence the wrapped source will still deliver, `bbuf`/`bpos` the one-byte
bit cache, `pos` the total-bits-read counter (`pos` field in the source). -/
structure BitReader where
  input : List Nat
  bbuf : Nat
  bpos : Nat
  pos : Nat
deriving DecidableEq, Repr

/-- Constructor `BitReader::new` (lines 41-48). -/
def new (bytes : List Nat) : BitReader :=
  { input := bytes, bbuf := 0, bpos := 0, pos := 0 }

/-- Accessor `get_position` (lines 50-52). -/
def get_position (s : BitReader) : Nat := s.pos

/-- Method `read_bit` (lines 55-68): on an empty cache fetch one byte (EOF or I/O
error collapse to `none`, leaving the reader untouched), then consume the
cached byte most-significant-bit first, advancing `pos`.  The refill sets
`bpos = 8` and the common path immediately decrements it, which is inlined
here as `bpos = 7`. -/
def read_bit (s : BitReader) : Option Nat × BitReader :=
  match s.bpos, s.input with
  | 0, [] => (none, s)
  | 0, b :: rest =>
    (some ((b >>> 7) &&& 1), { input := rest, bbuf := b, bpos := 7, pos := s.pos + 1 })
  | k + 1, _ =>
    (some ((s.bbuf >>> k) &&& 1), { s with bpos := k, pos := s.pos + 1 })

/-- Method `skip` (lines 70-77): consume `n` bits via `read_bit`, short-circuiting
on the first failed read (partially consumed bits are not rolled back). -/
def skip : Nat → BitReader → Option Unit × BitReader
  | 0, s => (some (), s)
  | n + 1, s =>
    match read_bit s with
    | (none, t) => (none, t)
    | (some _, t) => skip n t

/-- Loop body of `f` (lines 82-85): `x = (x << 1) | self.read_bit()?`, with
the accumulator a `u32`. -/
def fAux : Nat → Nat → BitReader → Option Nat × BitReader
  | 0, x, s => (some x, s)
  | n + 1, x, s =>
    match read_bit s with
    | (none, t) => (none, t)
    | (some b, t) => fAux n ((x <<< 1) % 2 ^ 32 ||| b) t

/-- Method `f` (lines 80-87): read `nbit` bits most-significant-bit first into a
`u32` accumulator.  The Rust code `assert!(nbit <= 32)` aborts on a contract
violation; every theorem about `f` carries `nbit ≤ 32` as a hypothesis, so
only the in-contract behaviour is ever used. -/
def f (nbit : Nat) (s : BitReader) : Option Nat × BitReader := fAux nbit 0 s

/-- Interpretation of a 32-bit pattern as a Rust `i32`. -/
def toI32 (p : Nat) : Int := if p < 2 ^ 31 then (p : Int) else (p : Int) - 2 ^ 32

/-- Sign-extending cast of an `i32` value to a 64-bit `usize`
(`v as usize`): nonnegative values are unchanged, negative ones become
`v + 2^64`. -/
def i32AsUsize (v : Int) : Nat := (v % 2 ^ 64).toNat

/-- Method `su` (lines 90-97): read `n` bits via `f`, reinterpret the `u32` as
`i32` (a pure pattern cast), build `sign_mask = 1 << (n - 1)` (an `i32`
shift whose amount, a wrapped `usize` for `n = 0`, is masked by 32), and if
the sign bit is set subtract `2 * sign_mask` with wrapping `i32` arithmetic.
All `i32` values are carried as 32-bit patterns; `toI32` interprets the
result. -/
def su (n : Nat) (s : BitReader) : Option Int × BitReader :=
  match f n s with
  | (none, t) => (none, t)
  | (some x, t) =>
    let sign_mask : Nat := (1 <<< ((n + (2 ^ 64 - 1)) % 2 ^ 64 % 32)) % 2 ^ 32
    if x &&& sign_mask ≠ 0 then
      (some (toI32 ((x + (2 ^ 32 - 2 * sign_mask % 2 ^ 32)) % 2 ^ 32)), t)
    else
      (some (toI32 x), t)

/-- Loop of `floor_log2` (lines 140-147): `while x != 0 { x >>= 1; s += 1 }`,
encoded with a fuel parameter; `fuel ≥ x` makes the fuel branch unreachable
because `x` at least halves each iteration (see `fl2goFuel_eq`). -/
def fl2goFuel : Nat → Nat → Nat → Nat
  | 0, _, s => s
  | fuel + 1, x, s => if x = 0 then s else fl2goFuel fuel (x >>> 1) (s + 1)

/-- Method `floor_log2` (lines 139-147): count the shifts needed to clear `x`, then
return `s - 1` with wrapping `u32` subtraction, written out as the explicit
case split: for `x = 0` the count is `0` and the Rust `0u32 - 1` wraps to
`2^32 - 1`; otherwise the count `s` is in `[1, 32]` and `s - 1` is plain. -/
def floor_log2 (x : Nat) : Nat :=
  if fl2goFuel x x 0 = 0 then 2 ^ 32 - 1 else fl2goFuel x x 0 - 1

/-- Method `ns` (lines 100-109): truncated-binary decoding.  `w = FloorLog2(n) + 1`;
`m = (1 << w) - n` with the `u32` shift amount masked by 32 and wrapping
subtraction; read `w - 1` bits as `v`; if `v < m` return `v`, else read one
extra bit and return `(v << 1) - m + extra_bit` (wrapping `u32` steps). -/
def ns (n : Nat) (s : BitReader) : Option Nat × BitReader :=
  let w := floor_log2 n + 1
  let m := ((1 <<< (w % 32)) % 2 ^ 32 + (2 ^ 32 - n % 2 ^ 32)) % 2 ^ 32
  match f (w - 1) s with
  | (none, t) => (none, t)
  | (some v, t) =>
    if v < m then (some v, t)
    else
      match f 1 t with
      | (none, u) => (none, u)
      | (some extra_bit, u) =>
        (some ((((v <<< 1) % 2 ^ 32 + (2 ^ 32 - m)) % 2 ^ 32 + extra_bit) % 2 ^ 32), u)

/-- The `loop { ... }` of `uvlc` (lines 113-119): read bits, counting zeros
in the `i32` variable `leading_zeros`, until a nonzero bit breaks the loop.
The counter is carried as its 32-bit pattern, so `leading_zeros += 1` wraps
modulo `2^32` (at `i32::MAX` it wraps to the `i32::MIN` pattern `2^31`).
Fuel-encoded; each iteration performs a successful `read_bit`, so
`8 * |input| + bpos + 1` iterations always suffice (the fuel-exhausted
branch is unreachable for that choice, see `uvlcLoopF_spec`). -/
def uvlcLoopF : Nat → Nat → BitReader → Option Nat × BitReader
  | 0, _, s => (none, s)
  | fuel + 1, leading_zeros, s =>
    match read_bit s with
    | (none, t) => (none, t)
    | (some b, t) =>
      if 0 < b then (some leading_zeros, t)
      else uvlcLoopF fuel ((leading_zeros + 1) % 2 ^ 32) t

/-- Method `uvlc` (lines 111-128): count leading zeros in an `i32`; when the
signed counter is 32 or more return the `u64` saturation value
`(1 << 32) - 1`; otherwise call `f(leading_zeros as usize)` — a
sign-extending cast, so a wrapped-negative counter (at least `2^31` zero
bits were read) yields a huge `usize` and `f`'s `assert!(nbit <= 32)`
ABORTS the process, modelled by `Except.error` carrying the reader state at
the abort.  In the surviving branch the counter is in `[0, 31]`, `f` reads
the suffix and the result is `value + (1 << leading_zeros) - 1` (the `u64`
arithmetic here stays far below `2^64`, so no wrap is written). -/
def uvlc (s : BitReader) : Except BitReader (Option Nat × BitReader) :=
  match uvlcLoopF (8 * s.input.length + s.bpos + 1) 0 s with
  | (none, t) => .ok (none, t)
  | (some leading_zeros, t) =>
    if 32 ≤ toI32 leading_zeros then .ok (some ((1 <<< 32) - 1), t)
    else
      if i32AsUsize (toI32 leading_zeros) ≤ 32 then
        match f (i32AsUsize (toI32 leading_zeros)) t with
        | (none, u) => .ok (none, u)
        | (some value, u) =>
          .ok (some (value + (1 <<< i32AsUsize (toI32 leading_zeros)) - 1), u)
      else .error t

/-- Loop body of `le` (lines 132-135): `let byte = self.f(8).unwrap();
t += byte << (i * 8)` with a `u32` accumulator (shift amount masked by 32,
wrapping add).  `.unwrap()` on a failed `f(8)` PANICS: that abort is modelled
by `Except.error`, carrying the reader state at the moment of the panic; the
`Except.ok` branch is the Rust `Some(..)` return.  (The Rust `le` can never
return `None`: its only `return` is `Some(..)`.) -/
def leGo : Nat → Nat → Nat → BitReader → Except BitReader (Nat × BitReader)
  | 0, _, t, s => .ok (t, s)
  | k + 1, i, t, s =>
    match f 8 s with
    | (none, u) => .error u
    | (some byte, u) => leGo k (i + 1) ((t + (byte <<< (i * 8 % 32)) % 2 ^ 32) % 2 ^ 32) u

/-- Method `le` (lines 130-137): assemble `n` bytes little-endian. -/
def le (n : Nat) (s : BitReader) : Except BitReader (Nat × BitReader) := leGo n 0 0 s

/-! ## Specification-side (ghost) definitions -/

/-- The most-significant-bit-first `k`-bit binary expansion of `v`. -/
def natToBits : Nat → Nat → List Nat
  | 0, _ => []
  | k + 1, v => (v / 2 ^ k % 2) :: natToBits k v

/-- All the bits of a byte list, msb first within each byte. -/
def bytesBits (bs : List Nat) : List Nat := bs.flatMap (natToBits 8)

/-- The sequence of bits the reader will deliver: the not-yet-consumed low
`bpos` bits of the cached byte (msb first), then the bits of the remaining
source bytes. -/
def bitsOf (s : BitReader) : List Nat := natToBits s.bpos s.bbuf ++ bytesBits s.input

/-- Well-formedness: bytes are bytes, the cache really holds a byte, and at
most 8 bits are pending in it. -/
def WF (s : BitReader) : Prop :=
  (∀ b ∈ s.input, b < 256) ∧ s.bbuf < 256 ∧ s.bpos ≤ 8

/-- Most-significant-bit-first concatenation of a bit list into a number
(repeated shift-left-by-one and or). -/
def bitsVal (l : List Nat) : Nat := l.foldl (fun a b => 2 * a + b) 0

/-- Number of binary digits of `x` (`0` for `x = 0`), fuel-encoded the same
way as `fl2goFuel`; `bitLen x = FloorLog2 x + 1` for `x ≥ 1`. -/
def bitLenF : Nat → Nat → Nat
  | 0, _ => 0
  | fuel + 1, x => if x = 0 then 0 else bitLenF fuel (x / 2) + 1

/-- Number of binary digits of `x`. -/
def bitLen (x : Nat) : Nat := bitLenF x x

/-- The `n`-bit two's-complement encoding of a signed value `v`. -/
def tcEncode (n : Nat) (v : Int) : List Nat := natToBits n (v % (2 ^ n : Int)).toNat

/-- The unique truncated-binary encoding of `u ∈ [0, n)` for alphabet size
`n ≥ 1`: with `w = FloorLog2 n + 1` and `m = 2^w - n`, value `u < m` is coded
in `w - 1` bits as `u`, and `u ≥ m` in `w` bits as `u + m`. -/
def nsEncode (n u : Nat) : List Nat :=
  let w := bitLen n
  let m := 2 ^ w - n
  if u < m then natToBits (w - 1) u else natToBits w (u + m)

/-- The uvlc encoding of `v`: `lz = FloorLog2 (v + 1)` zero bits, a one bit,
then the `lz`-bit suffix `v + 1 - 2 ^ lz`. -/
def uvlcEncode (v : Nat) : List Nat :=
  let lz := bitLen (v + 1) - 1
  List.replicate lz 0 ++ 1 :: natToBits lz (v + 1 - 2 ^ lz)

/-- The little-endian value of a byte list: byte `i` at bit offset `8 * i`. -/
def leVal : List Nat → Nat
  | [] => 0
  | b :: t => b + 256 * leVal t

/-- Repeated calls of `read_bit` (`n` of them), collecting the returned bits;
short-circuits (like the callers in the source do) on the first failure. -/
def readN : Nat → BitReader → Option (List Nat) × BitReader
  | 0, s => (some [], s)
  | n + 1, s =>
    match read_bit s with
    | (none, t) => (none, t)
    | (some b, t) =>
      match readN n t with
      | (none, u) => (none, u)
      | (some bs, u) => (some (b :: bs), u)

/-- One operation of the public reading surface, for statements quantifying
over arbitrary call sequences. -/
inductive Op where
  | rb
  | skipn (n : Nat)
  | fn (n : Nat)
  | sun (n : Nat)
  | nsn (n : Nat)
  | uv
  | len (n : Nat)

/-- The reader state after one operation (results are discarded; for `le`,
the state at the panic is kept when the unwrap fires). -/
def stepOp (op : Op) (s : BitReader) : BitReader :=
  match op with
  | .rb => (read_bit s).2
  | .skipn n => (skip n s).2
  | .fn n => (f n s).2
  | .sun n => (su n s).2
  | .nsn n => (ns n s).2
  | .uv =>
    match uvlc s with
    | .ok (_, t) => t
    | .error t => t
  | .len n =>
    match le n s with
    | .ok (_, t) => t
    | .error t => t

/-- The reader state after a sequence of operations. -/
def runOps (ops : List Op) (s : BitReader) : BitReader :=
  ops.foldl (fun s op => stepOp op s) s

/-- State `t` is reachable from `s` by consuming bits: well-formedness is kept,
`pos` grows by exactly the number of consumed bits, and the pending bits
only shrink. -/
def Conserves (s t : BitReader) : Prop :=
  WF t ∧ t.pos + (bitsOf t).length = s.pos + (bitsOf s).length ∧
    (bitsOf t).length ≤ (bitsOf s).length

/-! ## Basic facts about the ghost bit-sequence functions -/

theorem natToBits_length (k v : Nat) : (natToBits k v).length = k := by
  induction k with
  | zero => rfl
  | succ k ih => simp [natToBits, ih]

theorem natToBits_le_one {k v b : Nat} (h : b ∈ natToBits k v) : b ≤ 1 := by
  induction k with
  | zero => simp [natToBits] at h
  | succ k ih =>
    simp only [natToBits, List.mem_cons] at h
    rcases h with h | h
    · subst h; omega
    · exact ih h

theorem foldl_natToBits (k v a : Nat) :
    List.foldl (fun a b => 2 * a + b) a (natToBits k v) = a * 2 ^ k + v % 2 ^ k := by
  induction k generalizing a with
  | zero => simp [natToBits, Nat.mod_one]
  | succ k ih =>
    simp only [natToBits, List.foldl_cons]
    rw [ih]
    have h : v % 2 ^ (k + 1) = v % 2 ^ k + 2 ^ k * (v / 2 ^ k % 2) := Nat.mod_pow_succ
    rw [h]
    ring

theorem bitsVal_natToBits (k v : Nat) : bitsVal (natToBits k v) = v % 2 ^ k := by
  simpa using foldl_natToBits k v 0

theorem natToBits_snoc (k v : Nat) :
    natToBits (k + 1) v = natToBits k (v / 2) ++ [v % 2] := by
  induction k generalizing v with
  | zero => simp [natToBits]
  | succ k ih =>
    have h1 : natToBits (k + 2) v = (v / 2 ^ (k + 1) % 2) :: natToBits (k + 1) v := rfl
    have h2 : natToBits (k + 1) (v / 2) = (v / 2 / 2 ^ k % 2) :: natToBits k (v / 2) := rfl
    rw [h1, ih v, h2]
    have : v / 2 / 2 ^ k = v / 2 ^ (k + 1) := by
      rw [Nat.div_div_eq_div_mul, pow_succ, mul_comm]
    rw [this]
    rfl

theorem bytesBits_nil : bytesBits [] = [] := rfl

theorem bytesBits_cons (b : Nat) (bs : List Nat) :
    bytesBits (b :: bs) = natToBits 8 b ++ bytesBits bs := rfl

theorem bytesBits_length (bs : List Nat) : (bytesBits bs).length = 8 * bs.length := by
  induction bs with
  | nil => rfl
  | cons b t ih => simp [bytesBits_cons, natToBits_length, ih]; ring

theorem bytesBits_take (bs : List Nat) (k : Nat) :
    (bytesBits bs).take (8 * k) = bytesBits (bs.take k) := by
  induction bs generalizing k with
  | nil => simp [bytesBits_nil]
  | cons b t ih =>
    cases k with
    | zero => simp [bytesBits_nil]
    | succ k =>
      have h8 : 8 * (k + 1) = 8 + 8 * k := by ring
      simp only [bytesBits_cons, List.take_succ_cons, h8]
      rw [List.take_append_eq_append_take]
      have hlen : (natToBits 8 b).length = 8 := natToBits_length 8 b
      rw [List.take_of_length_le (by omega), hlen]
      have : 8 + 8 * k - 8 = 8 * k := by omega
      rw [this, ih]

theorem bitsOf_length (s : BitReader) :
    (bitsOf s).length = s.bpos + 8 * s.input.length := by
  simp [bitsOf, natToBits_length, bytesBits_length]

theorem bitsOf_le_one {s : BitReader} {b : Nat} (h : b ∈ bitsOf s) : b ≤ 1 := by
  simp only [bitsOf, List.mem_append] at h
  rcases h with h | h
  · exact natToBits_le_one h
  · simp only [bytesBits, List.mem_flatMap] at h
    obtain ⟨c, _, hc⟩ := h
    exact natToBits_le_one hc

theorem bitsOf_new (bytes : List Nat) : bitsOf (new bytes) = bytesBits bytes := rfl

theorem WF_new {bytes : List Nat} (h : ∀ b ∈ bytes, b < 256) : WF (new bytes) :=
  ⟨h, by simp [new], by simp [new]⟩

/-! ## The `read_bit` / `bitsOf` correspondence -/

theorem shiftRight_and_one (x k : Nat) : (x >>> k) &&& 1 = x / 2 ^ k % 2 := by
  rw [Nat.shiftRight_eq_div_pow, Nat.and_one_is_mod]

theorem read_bit_nil {s : BitReader} (h : bitsOf s = []) : read_bit s = (none, s) := by
  have hlen := bitsOf_length s
  rw [h] at hlen
  simp only [List.length_nil] at hlen
  have hb : s.bpos = 0 := by omega
  have hi : s.input = [] := by
    cases hh : s.input with
    | nil => rfl
    | cons a t => rw [hh] at hlen; simp at hlen; omega
  rcases s with ⟨i, bb, bp, p⟩
  simp only at hb hi
  subst hb hi
  rfl

theorem read_bit_cons {s : BitReader} {b : Nat} {l : List Nat} (hw : WF s)
    (h : bitsOf s = b :: l) :
    ∃ t, read_bit s = (some b, t) ∧ WF t ∧ bitsOf t = l ∧ t.pos = s.pos + 1 := by
  rcases s with ⟨input, bbuf, bpos, pos⟩
  obtain ⟨hin, hbb, hbp⟩ := hw
  replace hin : ∀ b ∈ input, b < 256 := hin
  replace hbb : bbuf < 256 := hbb
  replace hbp : bpos ≤ 8 := hbp
  cases hbpos : bpos with
  | zero =>
    subst hbpos
    cases hinput : input with
    | nil =>
      subst hinput
      simp [bitsOf, natToBits, bytesBits_nil] at h
    | cons c rest =>
      subst hinput
      have hbits : bitsOf { input := c :: rest, bbuf := bbuf, bpos := 0, pos := pos } =
          (c / 2 ^ 7 % 2) :: (natToBits 7 c ++ bytesBits rest) := rfl
      rw [hbits, List.cons.injEq] at h
      obtain ⟨hb, hl⟩ := h
      refine ⟨{ input := rest, bbuf := c, bpos := 7, pos := pos + 1 }, ?_, ?_, ?_, rfl⟩
      · simp only [read_bit, shiftRight_and_one, hb]
      · exact ⟨fun x hx => hin x (List.mem_cons_of_mem _ hx),
          hin c (List.mem_cons_self _ _), show (7 : Nat) ≤ 8 by omega⟩
      · rw [← hl]; rfl
  | succ k =>
    subst hbpos
    have hbits : bitsOf { input := input, bbuf := bbuf, bpos := k + 1, pos := pos } =
        (bbuf / 2 ^ k % 2) :: (natToBits k bbuf ++ bytesBits input) := rfl
    rw [hbits, List.cons.injEq] at h
    obtain ⟨hb, hl⟩ := h
    refine ⟨{ input := input, bbuf := bbuf, bpos := k, pos := pos + 1 }, ?_, ?_, ?_, rfl⟩
    · simp only [read_bit, shiftRight_and_one, hb]
    · exact ⟨hin, hbb, show k ≤ 8 by omega⟩
    · rw [← hl]; rfl

theorem read_bit_conserve {s : BitReader} (hw : WF s) : Conserves s (read_bit s).2 := by
  cases h : bitsOf s with
  | nil => rw [read_bit_nil h]; exact ⟨hw, rfl, le_refl _⟩
  | cons b l =>
    obtain ⟨t, ht, hwt, hbt, hpt⟩ := read_bit_cons hw h
    rw [ht]
    refine ⟨hwt, ?_, ?_⟩
    · show t.pos + (bitsOf t).length = s.pos + (bitsOf s).length
      rw [hbt, hpt, h]
      simp only [List.length_cons]
      omega
    · show (bitsOf t).length ≤ (bitsOf s).length
      rw [hbt, h]
      simp only [List.length_cons]
      omega

/-- A failed `read_bit` leaves the reader exactly as it was. -/
theorem read_bit_none_eq {s : BitReader} (h : (read_bit s).1 = none) :
    (read_bit s).2 = s := by
  rcases s with ⟨input, bbuf, bpos, pos⟩
  cases bpos with
  | zero =>
    cases input with
    | nil => rfl
    | cons c rest => simp [read_bit] at h
  | succ k => simp [read_bit] at h

theorem read_bit_pos_succ {s : BitReader} {b : Nat} (h : (read_bit s).1 = some b) :
    (read_bit s).2.pos = s.pos + 1 := by
  rcases s with ⟨input, bbuf, bpos, pos⟩
  cases bpos with
  | zero =>
    cases input with
    | nil => simp [read_bit] at h
    | cons c rest => rfl
  | succ k => rfl

/-! ## Consumption lemmas: what each primitive does to a stream that holds
(or does not hold) the bits it asks for -/

theorem fAux_spec {l₂ : List Nat} :
    ∀ (l₁ : List Nat) (x : Nat) (s : BitReader), WF s → bitsOf s = l₁ ++ l₂ →
      l₁.length ≤ 32 → x < 2 ^ (32 - l₁.length) →
      ∃ t, fAux l₁.length x s = (some (l₁.foldl (fun a b => 2 * a + b) x), t) ∧
        WF t ∧ bitsOf t = l₂ ∧ t.pos = s.pos + l₁.length := by
  intro l₁
  induction l₁ with
  | nil => exact fun x s hw hb _ _ => ⟨s, rfl, hw, hb, by simp⟩
  | cons b l ih =>
    intro x s hw hb hlen hx
    have hbit : b ≤ 1 := bitsOf_le_one
      (by rw [hb]; exact List.mem_append_left _ (List.mem_cons_self _ _))
    obtain ⟨t, ht, hwt, hbt, hpt⟩ := read_bit_cons hw (by rw [hb]; rfl)
    have hlist : (b :: l).length = l.length + 1 := rfl
    have hlen' : l.length ≤ 32 := by rw [hlist] at hlen; omega
    have hpow : (2 : Nat) ^ (32 - (l.length + 1)) * 2 ≤ 2 ^ (32 - l.length) := by
      rw [← pow_succ]
      exact Nat.pow_le_pow_right (by omega) (by omega)
    have hx' : 2 * x + b < 2 ^ (32 - l.length) := by
      rw [hlist] at hx
      omega
    have hstep : (x <<< 1) % 2 ^ 32 ||| b = 2 * x + b := by
      have h1 : x <<< 1 = 2 * x := by rw [Nat.shiftLeft_eq]; ring
      have h32 : (2 : Nat) ^ (32 - l.length) ≤ 2 ^ 32 := Nat.pow_le_pow_right (by omega) (by omega)
      have h2 : 2 * x < 2 ^ 32 := by omega
      have h3 : (2 : Nat) ^ 1 * x + b = 2 ^ 1 * x ||| b := Nat.mul_add_lt_is_or (by omega) x
      rw [h1, Nat.mod_eq_of_lt h2]
      simpa [mul_comm] using h3.symm
    obtain ⟨u, hu, hwu, hbu, hpu⟩ := ih (2 * x + b) t hwt hbt hlen' hx'
    refine ⟨u, ?_, hwu, hbu, by rw [hpu, hpt, hlist]; omega⟩
    have hunfold : fAux (l.length + 1) x s = fAux l.length ((x <<< 1) % 2 ^ 32 ||| b) t := by
      simp only [fAux, ht]
    rw [hlist, hunfold, hstep, hu, List.foldl_cons]

theorem f_spec {n : Nat} {l₁ l₂ : List Nat} {s : BitReader} (hw : WF s)
    (hb : bitsOf s = l₁ ++ l₂) (hlen : l₁.length = n) (hn : n ≤ 32) :
    ∃ t, f n s = (some (bitsVal l₁), t) ∧ WF t ∧ bitsOf t = l₂ ∧ t.pos = s.pos + n := by
  subst hlen
  exact fAux_spec l₁ 0 s hw hb hn (by positivity)

theorem fAux_none :
    ∀ (n x : Nat) (s : BitReader), WF s → (bitsOf s).length < n →
      ∃ t, fAux n x s = (none, t) ∧ WF t ∧ bitsOf t = [] ∧
        t.pos = s.pos + (bitsOf s).length := by
  intro n
  induction n with
  | zero => intro x s _ h; omega
  | succ n ih =>
    intro x s hw hlen
    cases hbits : bitsOf s with
    | nil =>
      refine ⟨s, ?_, hw, hbits, by simp⟩
      have hr := read_bit_nil hbits
      simp only [fAux, hr]
    | cons b l =>
      obtain ⟨t, ht, hwt, hbt, hpt⟩ := read_bit_cons hw hbits
      have hlen' : (bitsOf t).length < n := by
        rw [hbt]; rw [hbits] at hlen; simp at hlen ⊢; omega
      obtain ⟨u, hu, hwu, hbu, hpu⟩ := ih ((x <<< 1) % 2 ^ 32 ||| b) t hwt hlen'
      refine ⟨u, ?_, hwu, hbu, ?_⟩
      · simp only [fAux, ht, hu]
      · rw [hpu, hpt, hbt]
        simp only [List.length_cons]
        omega

theorem f_none {n : Nat} {s : BitReader} (hw : WF s) (h : (bitsOf s).length < n) :
    ∃ t, f n s = (none, t) ∧ WF t ∧ bitsOf t = [] ∧
      t.pos = s.pos + (bitsOf s).length :=
  fAux_none n 0 s hw h

theorem skip_spec {l₂ : List Nat} :
    ∀ (l₁ : List Nat) (s : BitReader), WF s → bitsOf s = l₁ ++ l₂ →
      ∃ t, skip l₁.length s = (some (), t) ∧ WF t ∧ bitsOf t = l₂ ∧
        t.pos = s.pos + l₁.length := by
  intro l₁
  induction l₁ with
  | nil => exact fun s hw hb => ⟨s, rfl, hw, hb, by simp⟩
  | cons b l ih =>
    intro s hw hb
    obtain ⟨t, ht, hwt, hbt, hpt⟩ := read_bit_cons hw (by rw [hb]; rfl)
    obtain ⟨u, hu, hwu, hbu, hpu⟩ := ih t hwt hbt
    refine ⟨u, ?_, hwu, hbu, ?_⟩
    · show skip (l.length + 1) s = (some (), u)
      simp only [skip, ht, hu]
    · rw [hpu, hpt]
      simp only [List.length_cons]
      omega

theorem skip_none :
    ∀ (n : Nat) (s : BitReader), WF s → (bitsOf s).length < n →
      ∃ t, skip n s = (none, t) ∧ WF t ∧ bitsOf t = [] ∧
        t.pos = s.pos + (bitsOf s).length := by
  intro n
  induction n with
  | zero => intro s _ h; omega
  | succ n ih =>
    intro s hw hlen
    cases hbits : bitsOf s with
    | nil =>
      refine ⟨s, ?_, hw, hbits, by simp⟩
      have hr := read_bit_nil hbits
      simp only [skip, hr]
    | cons b l =>
      obtain ⟨t, ht, hwt, hbt, hpt⟩ := read_bit_cons hw hbits
      have hlen' : (bitsOf t).length < n := by
        rw [hbt]; rw [hbits] at hlen; simp at hlen ⊢; omega
      obtain ⟨u, hu, hwu, hbu, hpu⟩ := ih t hwt hlen'
      refine ⟨u, ?_, hwu, hbu, ?_⟩
      · simp only [skip, ht, hu]
      · rw [hpu, hpt, hbt]
        simp only [List.length_cons]
        omega

theorem readN_spec {l₂ : List Nat} :
    ∀ (l₁ : List Nat) (s : BitReader), WF s → bitsOf s = l₁ ++ l₂ →
      ∃ t, readN l₁.length s = (some l₁, t) ∧ WF t ∧ bitsOf t = l₂ ∧
        t.pos = s.pos + l₁.length := by
  intro l₁
  induction l₁ with
  | nil => exact fun s hw hb => ⟨s, rfl, hw, hb, by simp⟩
  | cons b l ih =>
    intro s hw hb
    obtain ⟨t, ht, hwt, hbt, hpt⟩ := read_bit_cons hw (by rw [hb]; rfl)
    obtain ⟨u, hu, hwu, hbu, hpu⟩ := ih t hwt hbt
    refine ⟨u, ?_, hwu, hbu, ?_⟩
    · show readN (l.length + 1) s = (some (b :: l), u)
      simp only [readN, ht, hu]
    · rw [hpu, hpt]
      simp only [List.length_cons]
      omega

/-! ## `bitLen` and the `floor_log2` loop -/

theorem bitLenF_zero (fuel : Nat) : bitLenF fuel 0 = 0 := by
  cases fuel with
  | zero => rfl
  | succ fuel => simp [bitLenF]

theorem bitLenF_congr : ∀ (f1 f2 x : Nat), x ≤ f1 → x ≤ f2 → bitLenF f1 x = bitLenF f2 x := by
  intro f1
  induction f1 with
  | zero =>
    intro f2 x h1 _
    have hx : x = 0 := by omega
    subst hx
    rw [bitLenF_zero, bitLenF_zero]
  | succ f1 ih =>
    intro f2 x h1 h2
    rcases Nat.eq_zero_or_pos x with hx | hx
    · subst hx
      rw [bitLenF_zero, bitLenF_zero]
    · cases f2 with
      | zero => omega
      | succ f2 =>
        simp only [bitLenF, if_neg (by omega : ¬x = 0)]
        congr 1
        exact ih f2 (x / 2) (by omega) (by omega)

theorem bitLenF_bounds : ∀ (fuel x : Nat), 1 ≤ x → x ≤ fuel →
    2 ^ (bitLenF fuel x - 1) ≤ x ∧ x < 2 ^ bitLenF fuel x := by
  intro fuel
  induction fuel with
  | zero => intro x h1 h2; omega
  | succ fuel ih =>
    intro x h1 _
    simp only [bitLenF, if_neg (by omega : ¬x = 0)]
    rcases Nat.lt_or_ge x 2 with hx | hx
    · have hx1 : x = 1 := by omega
      subst hx1
      rw [show (1 : Nat) / 2 = 0 by omega, bitLenF_zero]
      omega
    · have hdiv1 : 1 ≤ x / 2 := by omega
      have hdivf : x / 2 ≤ fuel := by omega
      obtain ⟨hl, hr⟩ := ih (x / 2) hdiv1 hdivf
      have hL1 : 1 ≤ bitLenF fuel (x / 2) := by
        by_contra hc
        have : bitLenF fuel (x / 2) = 0 := by omega
        rw [this] at hr
        omega
      have he : (2 : Nat) ^ bitLenF fuel (x / 2) = 2 ^ (bitLenF fuel (x / 2) - 1) * 2 := by
        rw [← pow_succ]
        congr 1
        omega
      have he2 : (2 : Nat) ^ (bitLenF fuel (x / 2) + 1) = 2 ^ bitLenF fuel (x / 2) * 2 :=
        pow_succ 2 _
      simp only [Nat.add_sub_cancel]
      omega

theorem bitLen_bounds {x : Nat} (h : 1 ≤ x) :
    2 ^ (bitLen x - 1) ≤ x ∧ x < 2 ^ bitLen x :=
  bitLenF_bounds x x h le_rfl

theorem bitLen_pos {x : Nat} (h : 1 ≤ x) : 1 ≤ bitLen x := by
  obtain ⟨_, hr⟩ := bitLen_bounds h
  by_contra hc
  have h0 : bitLen x = 0 := by omega
  rw [h0] at hr
  omega

theorem bitLen_le_self {x : Nat} (h : 1 ≤ x) : bitLen x ≤ x := by
  obtain ⟨hl, _⟩ := bitLen_bounds h
  have h2 : bitLen x - 1 < 2 ^ (bitLen x - 1) := Nat.lt_two_pow _
  have h3 := bitLen_pos h
  omega

theorem bitLen_unique {k x : Nat} (h1 : 2 ^ k ≤ x) (h2 : x < 2 ^ (k + 1)) :
    bitLen x = k + 1 := by
  have hx : 1 ≤ x := le_trans Nat.one_le_two_pow h1
  obtain ⟨hl, hr⟩ := bitLen_bounds hx
  have hL1 := bitLen_pos hx
  have h3 : k < bitLen x := by
    have := lt_of_le_of_lt h1 hr
    exact (Nat.pow_lt_pow_iff_right (by omega)).1 this
  have h4 : bitLen x - 1 < k + 1 := by
    have := lt_of_le_of_lt hl h2
    exact (Nat.pow_lt_pow_iff_right (by omega)).1 this
  omega

theorem fl2goFuel_eq : ∀ (fuel x s : Nat), fl2goFuel fuel x s = s + bitLenF fuel x := by
  intro fuel
  induction fuel with
  | zero => intro x s; simp [fl2goFuel, bitLenF]
  | succ fuel ih =>
    intro x s
    by_cases hx : x = 0
    · simp [fl2goFuel, bitLenF, hx]
    · simp only [fl2goFuel, bitLenF, if_neg hx]
      rw [ih]
      have hsh : x >>> 1 = x / 2 := by
        rw [Nat.shiftRight_eq_div_pow, pow_one]
      rw [hsh]
      omega

/-- For `1 ≤ x` the Rust `FloorLog2` computes `bitLen x - 1`, i.e. the
genuine floor of the base-2 logarithm. -/
theorem floor_log2_eq {x : Nat} (h1 : 1 ≤ x) : floor_log2 x = bitLen x - 1 := by
  unfold floor_log2
  rw [fl2goFuel_eq]
  have h3 : 1 ≤ bitLen x := bitLen_pos h1
  have heq : bitLenF x x = bitLen x := rfl
  rw [heq]
  rw [if_neg (by omega)]
  omega

/-! ## Claim C2: `f` -/

/-- C2: for `n ≤ 32` (the hypothesis matching the Rust `assert!`), when the
source still holds at least `n` bits, `f::<u32>(n)` returns `Some` of the
msb-first shift-and-or concatenation of the next `n` bits; when fewer than
`n` bits remain it returns `None`. -/
theorem c2_f_reads_msb_concat (n : Nat) (s : BitReader) (hn : n ≤ 32) (hw : WF s) :
    (n ≤ (bitsOf s).length → (f n s).1 = some (bitsVal ((bitsOf s).take n))) ∧
    ((bitsOf s).length < n → (f n s).1 = none) := by
  constructor
  · intro hlen
    have hsplit : bitsOf s = (bitsOf s).take n ++ (bitsOf s).drop n :=
      (List.take_append_drop _ _).symm
    have hlen' : ((bitsOf s).take n).length = n := by
      rw [List.length_take]
      omega
    obtain ⟨t, ht, _, _, _⟩ := f_spec hw hsplit hlen' hn
    rw [ht]
  · intro hlen
    obtain ⟨t, ht, _, _, _⟩ := f_none hw hlen
    rw [ht]

/-- Witness for C2 at concrete inputs: reading 4 bits of the byte
`0b10110000` yields 11, and asking 1 bit of an exhausted source fails. -/
theorem c2_witness : (f 4 (new [176])).1 = some 11 ∧ (f 1 (new [])).1 = none := by
  constructor
  · have h := (c2_f_reads_msb_concat 4 (new [176]) (by omega) (WF_new (by decide))).1 (by decide)
    rw [h]
    decide
  · exact (c2_f_reads_msb_concat 1 (new []) (by omega) (WF_new (by decide))).2 (by decide)

/-! ## Claim C7: `read_bit` reproduces the bytes -/

/-- C7: from a fresh reader over any byte sequence with at least `k` bytes,
`8 * k` successive `read_bit` calls all succeed and return exactly the bits
of the first `k` bytes, msb first within each byte. -/
theorem c7_read_bit_bytes (bytes : List Nat) (k : Nat)
    (hbytes : ∀ b ∈ bytes, b < 256) (hk : k ≤ bytes.length) :
    ∃ t, readN (8 * k) (new bytes) = (some (bytesBits (bytes.take k)), t) ∧
      t.pos = 8 * k := by
  have hsplit : bitsOf (new bytes) = bytesBits (bytes.take k) ++ (bytesBits bytes).drop (8 * k) := by
    rw [bitsOf_new, ← bytesBits_take]
    exact (List.take_append_drop _ _).symm
  obtain ⟨t, ht, _, _, hpt⟩ := readN_spec (bytesBits (bytes.take k)) (new bytes) (WF_new hbytes) hsplit
  have hlen : (bytesBits (bytes.take k)).length = 8 * k := by
    rw [bytesBits_length, List.length_take]
    have : min k bytes.length = k := by omega
    rw [this]
  rw [hlen] at ht hpt
  refine ⟨t, ht, ?_⟩
  rw [hpt]
  show (new bytes).pos + 8 * k = 8 * k
  simp [new]

/-- Witness for C7: the two bytes `0xA5 0x3C` come back bit by bit. -/
theorem c7_witness :
    0xA5 < 256 ∧ 0x3C < 256 ∧
      ∃ t, readN 16 (new [0xA5, 0x3C]) =
        (some [1, 0, 1, 0, 0, 1, 0, 1, 0, 0, 1, 1, 1, 1, 0, 0], t) ∧ t.pos = 16 := by
  refine ⟨by omega, by omega, ?_⟩
  obtain ⟨t, ht, hp⟩ := c7_read_bit_bytes [0xA5, 0x3C] 2 (by decide) (by decide)
  have hl : bytesBits (List.take 2 [0xA5, 0x3C]) =
      [1, 0, 1, 0, 0, 1, 0, 1, 0, 0, 1, 1, 1, 1, 0, 0] := by decide
  rw [hl] at ht
  exact ⟨t, ht, hp⟩

/-! ## Claim C9: `skip` -/

/-- C9: `skip n` succeeds exactly when `n` bits remain, consuming them all;
on a stream with `k - 1 < n` remaining bits the `k`-th read fails, `skip`
returns `none`, and the `k - 1` available bits stay consumed (the position
has advanced by `k - 1`; nothing is rolled back). -/
theorem c9_skip_consumes (n : Nat) (s : BitReader) (hw : WF s) :
    (n ≤ (bitsOf s).length →
      ∃ t, skip n s = (some (), t) ∧ bitsOf t = (bitsOf s).drop n ∧ t.pos = s.pos + n) ∧
    ((bitsOf s).length < n →
      ∃ t, skip n s = (none, t) ∧ bitsOf t = [] ∧ t.pos = s.pos + (bitsOf s).length) := by
  constructor
  · intro hlen
    have hsplit : bitsOf s = (bitsOf s).take n ++ (bitsOf s).drop n :=
      (List.take_append_drop _ _).symm
    have hlen' : ((bitsOf s).take n).length = n := by
      rw [List.length_take]
      omega
    obtain ⟨t, ht, _, hbt, hpt⟩ := skip_spec ((bitsOf s).take n) s hw hsplit
    rw [hlen'] at ht hpt
    exact ⟨t, ht, hbt, hpt⟩
  · intro hlen
    obtain ⟨t, ht, _, hbt, hpt⟩ := skip_none n s hw hlen
    exact ⟨t, ht, hbt, hpt⟩

/-- Witness for C9: skipping 3 of 8 available bits succeeds with the
position at 3; skipping 9 fails with all 8 bits consumed. -/
theorem c9_witness :
    (∃ t, skip 3 (new [0xF0]) = (some (), t) ∧ bitsOf t = [1, 0, 0, 0, 0] ∧ t.pos = 3) ∧
    (∃ t, skip 9 (new [0xF0]) = (none, t) ∧ bitsOf t = [] ∧ t.pos = 8) := by
  constructor
  · obtain ⟨t, ht, hbt, hpt⟩ :=
      (c9_skip_consumes 3 (new [0xF0]) (WF_new (by decide))).1 (by decide)
    refine ⟨t, ht, ?_, ?_⟩
    · rw [hbt]; decide
    · rw [hpt]; decide
  · obtain ⟨t, ht, hbt, hpt⟩ :=
      (c9_skip_consumes 9 (new [0xF0]) (WF_new (by decide))).2 (by decide)
    refine ⟨t, ht, hbt, ?_⟩
    rw [hpt]; decide

/-! ## Claim C10: a failed `read_bit` is atomic -/

/-- C10: when `read_bit` returns `none` the reader is left completely
unchanged — same reported position, same cached byte, same pending-bit
count — so the failed read is invisible to later calls. -/
theorem c10_read_bit_failure_atomic (s : BitReader) (h : (read_bit s).1 = none) :
    (read_bit s).2 = s ∧ get_position (read_bit s).2 = get_position s ∧
      (read_bit s).2.bbuf = s.bbuf ∧ (read_bit s).2.bpos = s.bpos := by
  have he := read_bit_none_eq h
  exact ⟨he, by rw [he], by rw [he], by rw [he]⟩

/-- Witness for C10 on an exhausted reader. -/
theorem c10_witness :
    (read_bit (new [])).1 = none ∧ (read_bit (new [])).2 = new [] :=
  ⟨by decide, (c10_read_bit_failure_atomic (new []) (by decide)).1⟩

/-! ## Claim C3: `su` -/

theorem two_pow_pred {n : Nat} (h : 1 ≤ n) : 2 ^ (n - 1) * 2 = 2 ^ n := by
  rw [← pow_succ]
  congr 1
  omega

/-- Testing the top bit of an `n`-bit value with the mask `2 ^ (n - 1)`. -/
theorem msb_test {n x : Nat} (h1 : 1 ≤ n) (hx : x < 2 ^ n) :
    x &&& 2 ^ (n - 1) ≠ 0 ↔ 2 ^ (n - 1) ≤ x := by
  rw [Nat.and_two_pow, Nat.testBit_to_div_mod]
  have hp : 0 < (2 : Nat) ^ (n - 1) := by positivity
  have h2 : 2 ^ (n - 1) * 2 = 2 ^ n := two_pow_pred h1
  constructor
  · intro h
    by_contra hc
    have h0 : x / 2 ^ (n - 1) = 0 := Nat.div_eq_of_lt (by omega)
    rw [h0] at h
    simp at h
  · intro h
    have h1' : x / 2 ^ (n - 1) = 1 := Nat.div_eq_of_lt_le (by omega) (by omega)
    rw [h1']
    simp

/-- Running `su n` on a stream whose next `n` bits form the unsigned pattern `x`:
the reader returns `x` minus `2 ^ n` exactly when the most significant of
the `n` bits is set. -/
theorem su_pattern {n : Nat} (h1 : 1 ≤ n) (h2 : n ≤ 32) {x : Nat} (hx : x < 2 ^ n)
    {s : BitReader} {l₂ : List Nat} (hw : WF s) (hb : bitsOf s = natToBits n x ++ l₂) :
    ∃ t, su n s = (some ((x : Int) - (if 2 ^ (n - 1) ≤ x then (2 : Int) ^ n else 0)), t) ∧
      WF t ∧ bitsOf t = l₂ ∧ t.pos = s.pos + n := by
  obtain ⟨t, hf, hwt, hbt, hpt⟩ := f_spec hw hb (natToBits_length n x) h2
  rw [bitsVal_natToBits, Nat.mod_eq_of_lt hx] at hf
  have hsm : (1 <<< ((n + (2 ^ 64 - 1)) % 2 ^ 64 % 32)) % 2 ^ 32 = 2 ^ (n - 1) := by
    have ha : (n + (2 ^ 64 - 1)) % 2 ^ 64 % 32 = n - 1 := by omega
    have hlt : (2 : Nat) ^ (n - 1) < 2 ^ 32 := (Nat.pow_lt_pow_iff_right (by omega)).2 (by omega)
    rw [ha, Nat.shiftLeft_eq, one_mul]
    exact Nat.mod_eq_of_lt hlt
  have hP : 2 ^ (n - 1) * 2 = 2 ^ n := two_pow_pred h1
  rcases Nat.lt_or_ge x (2 ^ (n - 1)) with hlt | hge
  · have hcond : ¬(x &&& 2 ^ (n - 1) ≠ 0) := by
      rw [msb_test h1 hx]
      omega
    refine ⟨t, ?_, hwt, hbt, hpt⟩
    simp only [su, hf, hsm, if_neg hcond]
    have hx31 : x < 2 ^ 31 := by
      have : (2 : Nat) ^ (n - 1) ≤ 2 ^ 31 := Nat.pow_le_pow_right (by omega) (by omega)
      omega
    rw [toI32, if_pos hx31, if_neg (by omega : ¬2 ^ (n - 1) ≤ x), sub_zero]
  · have hcond : x &&& 2 ^ (n - 1) ≠ 0 := (msb_test h1 hx).2 hge
    refine ⟨t, ?_, hwt, hbt, hpt⟩
    simp only [su, hf, hsm, if_pos hcond, if_pos hge]
    have hcastn : ((2 ^ n : Nat) : Int) = 2 ^ n := by push_cast; ring
    rcases Nat.lt_or_ge n 32 with hn31 | hn32
    · -- n ≤ 31: the i32 subtraction 2 * sign_mask does not wrap
      have hsm32 : 2 * 2 ^ (n - 1) % 2 ^ 32 = 2 ^ n := by
        rw [mul_comm, hP]
        exact Nat.mod_eq_of_lt ((Nat.pow_lt_pow_iff_right (by omega)).2 (by omega))
      have hn31' : (2 : Nat) ^ n ≤ 2 ^ 31 := Nat.pow_le_pow_right (by omega) (by omega)
      have hval : (x + (2 ^ 32 - 2 * 2 ^ (n - 1) % 2 ^ 32)) % 2 ^ 32 = x + 2 ^ 32 - 2 ^ n := by
        rw [hsm32]
        have : x + (2 ^ 32 - 2 ^ n) < 2 ^ 32 := by omega
        rw [Nat.mod_eq_of_lt this]
        omega
      have hfin : ((x + 2 ^ 32 - 2 ^ n : Nat) : Int) - 2 ^ 32 = (x : Int) - 2 ^ n := by
        omega
      rw [hval, toI32, if_neg (by omega : ¬x + 2 ^ 32 - 2 ^ n < 2 ^ 31), hfin]
    · -- n = 32: `2 * sign_mask` wraps to 0 and the pattern cast alone
      -- already produces the two's-complement value
      have hn : n = 32 := by omega
      subst hn
      have hsm32 : 2 * 2 ^ (32 - 1) % 2 ^ 32 = 0 := by norm_num
      have hval : (x + (2 ^ 32 - 2 * 2 ^ (32 - 1) % 2 ^ 32)) % 2 ^ 32 = x := by
        rw [hsm32, Nat.sub_zero, Nat.add_mod_right]
        exact Nat.mod_eq_of_lt hx
      rw [hval, toI32, if_neg (by simp only [Nat.reduceSub] at hge ⊢; omega : ¬x < 2 ^ 31)]

/-- C3: `su(n)` for `1 ≤ n ≤ 32`.  First conjunct: reading the unsigned
`n`-bit pattern `x`, `su` subtracts `2 ^ n` exactly when the most
significant of the `n` bits is set.  Second conjunct (round-trip): decoding
the `n`-bit two's-complement encoding of any `v ∈ [-2^(n-1), 2^(n-1) - 1]`
returns `Some v`. -/
theorem c3_su_twos_complement :
    (∀ (n : Nat), 1 ≤ n → n ≤ 32 → ∀ (x : Nat), x < 2 ^ n →
      ∀ (s : BitReader) (l₂ : List Nat), WF s → bitsOf s = natToBits n x ++ l₂ →
        ∃ t, su n s = (some ((x : Int) - (if 2 ^ (n - 1) ≤ x then (2 : Int) ^ n else 0)), t) ∧
          bitsOf t = l₂ ∧ t.pos = s.pos + n) ∧
    (∀ (n : Nat), 1 ≤ n → n ≤ 32 → ∀ (v : Int),
      -(2 ^ (n - 1) : Int) ≤ v → v < 2 ^ (n - 1) →
      ∀ (s : BitReader) (l₂ : List Nat), WF s → bitsOf s = tcEncode n v ++ l₂ →
        ∃ t, su n s = (some v, t) ∧ bitsOf t = l₂ ∧ t.pos = s.pos + n) := by
  constructor
  · intro n h1 h2 x hx s l₂ hw hb
    obtain ⟨t, hsu, _, hbt, hpt⟩ := su_pattern h1 h2 hx hw hb
    exact ⟨t, hsu, hbt, hpt⟩
  · intro n h1 h2 v hlo hhi s l₂ hw hb
    have hPn : ((2 : Int) ^ (n - 1)) * 2 = 2 ^ n := by
      rw [← pow_succ]
      congr 1
      omega
    have hpos : (0 : Int) < 2 ^ n := by positivity
    have hmod : v % (2 ^ n : Int) = if 0 ≤ v then v else v + 2 ^ n := by
      rcases le_or_lt 0 v with h0 | h0
      · rw [if_pos h0]
        exact Int.emod_eq_of_lt h0 (by omega)
      · rw [if_neg (by omega)]
        have hshift : (v + 2 ^ n * 1) % (2 ^ n : Int) = v % 2 ^ n :=
          Int.add_mul_emod_self_left v (2 ^ n) 1
        rw [mul_one] at hshift
        rw [← hshift]
        exact Int.emod_eq_of_lt (by omega) (by omega)
    have hem1 : 0 ≤ v % (2 ^ n : Int) := Int.emod_nonneg v hpos.ne'
    have hem2 : v % (2 ^ n : Int) < 2 ^ n := Int.emod_lt_of_pos v hpos
    have hx2 : (((v % (2 ^ n : Int)).toNat : Nat) : Int) = v % 2 ^ n := Int.toNat_of_nonneg hem1
    have hcast1 : ((2 ^ (n - 1) : Nat) : Int) = 2 ^ (n - 1) := by push_cast; ring
    have hcast2 : ((2 ^ n : Nat) : Int) = 2 ^ n := by push_cast; ring
    have hx : (v % (2 ^ n : Int)).toNat < 2 ^ n := by omega
    have hb' : bitsOf s = natToBits n (v % (2 ^ n : Int)).toNat ++ l₂ := hb
    obtain ⟨t, hsu, _, hbt, hpt⟩ := su_pattern h1 h2 hx hw hb'
    have hveq : (((v % (2 ^ n : Int)).toNat : Int) -
        (if 2 ^ (n - 1) ≤ (v % (2 ^ n : Int)).toNat then (2 : Int) ^ n else 0)) = v := by
      by_cases hc : 2 ^ (n - 1) ≤ (v % (2 ^ n : Int)).toNat
      · rw [if_pos hc]
        have hc' : ((2 ^ (n - 1) : Nat) : Int) ≤ ((v % (2 ^ n : Int)).toNat : Int) := by
          exact_mod_cast hc
        rcases le_or_lt 0 v with h0 | h0
        · rw [hmod, if_pos h0] at hx2
          omega
        · rw [hmod, if_neg (by omega)] at hx2
          omega
      · rw [if_neg hc]
        have hc' : ¬((2 ^ (n - 1) : Nat) : Int) ≤ ((v % (2 ^ n : Int)).toNat : Int) := by
          intro hcc
          exact hc (by exact_mod_cast hcc)
        rcases le_or_lt 0 v with h0 | h0
        · rw [hmod, if_pos h0] at hx2
          omega
        · rw [hmod, if_neg (by omega)] at hx2
          omega
    rw [hveq] at hsu
    exact ⟨t, hsu, hbt, hpt⟩

/-- Witness for C3: the 3-bit two's-complement pattern `101` decodes to `-3`. -/
theorem c3_witness :
    ∃ t, su 3 (new [160]) = (some (-3), t) ∧ bitsOf t = [0, 0, 0, 0, 0] ∧ t.pos = 3 := by
  obtain ⟨t, hsu, hbt, hpt⟩ := c3_su_twos_complement.2 3 (by omega) (by omega) (-3)
    (by norm_num) (by norm_num) (new [160]) [0, 0, 0, 0, 0] (WF_new (by decide)) (by decide)
  exact ⟨t, hsu, hbt, by rw [hpt]; rfl⟩

/-! ## Claim C4: `ns` -/

/-- C4 (amended to `1 ≤ n ≤ 2^31`): `ns n` is inverse to the truncated-binary
encoding `nsEncode n`: every `u < n` is decoded back from its unique code,
consuming exactly the code's bits (`w - 1` of them when `u < m`, `w`
otherwise).  For `n > 2^31` the `u32` shift `1 << w` overflows and the code
diverges from the truncated-binary formula (`c4_counterexample`); at
`n = 2^31` the masked shift happens to produce the same decoding. -/
theorem c4_ns_truncated_binary (n : Nat) (h1 : 1 ≤ n) (h2 : n ≤ 2 ^ 31)
    (u : Nat) (hu : u < n) (s : BitReader) (l₂ : List Nat) (hw : WF s)
    (hb : bitsOf s = nsEncode n u ++ l₂) :
    ∃ t, ns n s = (some u, t) ∧ bitsOf t = l₂ ∧
      t.pos = s.pos + (nsEncode n u).length := by
  have hw1 : 1 ≤ bitLen n := bitLen_pos h1
  obtain ⟨hbl, hbr⟩ := bitLen_bounds h1
  have hP : 2 ^ (bitLen n - 1) * 2 = 2 ^ bitLen n := two_pow_pred hw1
  have hw32 : bitLen n ≤ 32 := by
    have ha : 2 ^ (bitLen n - 1) ≤ 2 ^ 31 := le_trans hbl h2
    have hb' := (Nat.pow_le_pow_iff_right (by omega : 1 < 2)).1 ha
    omega
  have hfl : floor_log2 n = bitLen n - 1 := floor_log2_eq h1
  have hwplus : bitLen n - 1 + 1 = bitLen n := by omega
  have hmcode : ((1 <<< (bitLen n % 32)) % 2 ^ 32 + (2 ^ 32 - n % 2 ^ 32)) % 2 ^ 32
      = if n = 2 ^ 31 then 2 ^ 31 + 1 else 2 ^ bitLen n - n := by
    rcases eq_or_lt_of_le h2 with heq | hlt
    · have h32 : bitLen n = 32 := by
        rw [heq]
        exact bitLen_unique (le_refl _) (by norm_num)
      rw [if_pos heq, h32, heq]
      decide
    · rw [if_neg (by omega)]
      have hwlt : bitLen n ≤ 31 := by
        have ha : 2 ^ (bitLen n - 1) < 2 ^ 31 := lt_of_le_of_lt hbl hlt
        have hb' := (Nat.pow_lt_pow_iff_right (by omega : 1 < 2)).1 ha
        omega
      have hpow : (2 : Nat) ^ bitLen n ≤ 2 ^ 31 := Nat.pow_le_pow_right (by omega) hwlt
      have hmod : bitLen n % 32 = bitLen n := Nat.mod_eq_of_lt (by omega)
      have hsh : (1 : Nat) <<< bitLen n = 2 ^ bitLen n := by
        rw [Nat.shiftLeft_eq, one_mul]
      rw [hmod, hsh, Nat.mod_eq_of_lt (by omega : (2 : Nat) ^ bitLen n < 2 ^ 32),
        Nat.mod_eq_of_lt (by omega : n < 2 ^ 32)]
      omega
  by_cases hum : u < 2 ^ bitLen n - n
  · -- short code: `w - 1` bits, direct value
    have hen : nsEncode n u = natToBits (bitLen n - 1) u := by
      simp only [nsEncode, if_pos hum]
    rw [hen] at hb
    have hulen : u < 2 ^ (bitLen n - 1) := by omega
    obtain ⟨t, hf, hwt, hbt, hpt⟩ := f_spec hw hb (natToBits_length _ _) (by omega)
    rw [bitsVal_natToBits, Nat.mod_eq_of_lt hulen] at hf
    have hcond : u < if n = 2 ^ 31 then 2 ^ 31 + 1 else 2 ^ bitLen n - n := by
      by_cases hn31 : n = 2 ^ 31
      · rw [if_pos hn31]
        omega
      · rw [if_neg hn31]
        exact hum
    refine ⟨t, ?_, hbt, by rw [hpt, hen, natToBits_length]⟩
    simp only [ns, hfl, hwplus, hmcode, hf, if_pos hcond]
  · -- long code: `w` bits for the value `u + m`
    have hn31 : n ≠ 2 ^ 31 := by
      intro he
      have h32 : bitLen n = 32 := by
        rw [he]
        exact bitLen_unique (le_refl _) (by norm_num)
      rw [h32, he] at hum
      rw [he] at hu
      omega
    have hwlt : bitLen n ≤ 31 := by
      have hlt : n < 2 ^ 31 := by omega
      have ha : 2 ^ (bitLen n - 1) < 2 ^ 31 := lt_of_le_of_lt hbl hlt
      have hb' := (Nat.pow_lt_pow_iff_right (by omega : 1 < 2)).1 ha
      omega
    have hpow : (2 : Nat) ^ bitLen n ≤ 2 ^ 31 := Nat.pow_le_pow_right (by omega) hwlt
    have hen : nsEncode n u = natToBits (bitLen n) (u + (2 ^ bitLen n - n)) := by
      simp only [nsEncode, if_neg hum]
    have hsum : u + (2 ^ bitLen n - n) < 2 ^ bitLen n := by omega
    rw [hen, ← hwplus, natToBits_snoc, hwplus, List.append_assoc] at hb
    have hvbound : (u + (2 ^ bitLen n - n)) / 2 < 2 ^ (bitLen n - 1) := by omega
    obtain ⟨t1, hf1, hwt1, hbt1, hpt1⟩ := f_spec hw hb (natToBits_length _ _) (by omega)
    rw [bitsVal_natToBits, Nat.mod_eq_of_lt hvbound] at hf1
    have hnotlt : ¬((u + (2 ^ bitLen n - n)) / 2 <
        if n = 2 ^ 31 then 2 ^ 31 + 1 else 2 ^ bitLen n - n) := by
      rw [if_neg hn31]
      omega
    obtain ⟨t2, hf2, hwt2, hbt2, hpt2⟩ := f_spec hwt1 hbt1
      (show ([(u + (2 ^ bitLen n - n)) % 2]).length = 1 from rfl) (by omega)
    have hbv1 : bitsVal [(u + (2 ^ bitLen n - n)) % 2] = (u + (2 ^ bitLen n - n)) % 2 := by
      simp [bitsVal]
    rw [hbv1] at hf2
    refine ⟨t2, ?_, hbt2, ?_⟩
    · simp only [ns, hfl, hwplus, hmcode, hf1, if_neg hnotlt, hf2, Prod.mk.injEq,
        Option.some.injEq]
      refine ⟨?_, trivial⟩
      rw [if_neg hn31, Nat.shiftLeft_eq, pow_one]
      omega
    · rw [hpt2, hpt1, hen, natToBits_length]
      omega

/-- Counterexample to C4 as stated (that the truncated-binary formula holds
for every `n ≥ 1`): at `n = 2^31 + 1` the value `2^31` is encoded (per the
claim's own formula, `w = 32`, `m = 2^31 - 1`, long code of `u + m`) as the
32 one-bits, but the reader — whose `1u32 << 32` is a masked shift —
decodes that very stream to `2^31 - 1`, not `2^31`. -/
theorem c4_counterexample :
    nsEncode (2 ^ 31 + 1) (2 ^ 31) = bitsOf (new [255, 255, 255, 255]) ∧
    (ns (2 ^ 31 + 1) (new [255, 255, 255, 255])).1 = some (2 ^ 31 - 1) ∧
    2 ^ 31 - 1 ≠ (2 ^ 31 : Nat) := by
  refine ⟨by decide, by decide, by decide⟩

/-- Witness for C4: alphabet size 5, value 3 (long code `110`). -/
theorem c4_witness :
    ∃ t, ns 5 (new [192]) = (some 3, t) ∧ bitsOf t = [0, 0, 0, 0, 0] ∧ t.pos = 3 := by
  obtain ⟨t, hns, hbt, hpt⟩ := c4_ns_truncated_binary 5 (by omega) (by norm_num) 3 (by omega)
    (new [192]) [0, 0, 0, 0, 0] (WF_new (by decide)) (by decide)
  refine ⟨t, hns, hbt, ?_⟩
  rw [hpt]
  decide

/-! ## Claim C5: `uvlc` -/

theorem toI32_of_lt {p : Nat} (h : p < 2 ^ 31) : toI32 p = (p : Int) := if_pos h

theorem toI32_of_ge {p : Nat} (h : 2 ^ 31 ≤ p) : toI32 p = (p : Int) - 2 ^ 32 :=
  if_neg (by omega)

theorem i32AsUsize_ofNat {p : Nat} (h : p < 2 ^ 64) : i32AsUsize (p : Int) = p := by
  unfold i32AsUsize
  rw [Int.emod_eq_of_lt (by positivity) (by exact_mod_cast h)]
  omega

theorem i32AsUsize_neg {k : Nat} (h1 : 2 ^ 31 ≤ k) (h2 : k < 2 ^ 32) :
    i32AsUsize ((k : Int) - 2 ^ 32) = k + 2 ^ 64 - 2 ^ 32 := by
  unfold i32AsUsize
  have hsh : ((k : Int) - 2 ^ 32 + 2 ^ 64 * 1) % 2 ^ 64 = ((k : Int) - 2 ^ 32) % 2 ^ 64 :=
    Int.add_mul_emod_self_left ((k : Int) - 2 ^ 32) (2 ^ 64) 1
  rw [mul_one] at hsh
  rw [← hsh, Int.emod_eq_of_lt (by omega) (by omega)]
  omega

theorem natToBits_zero : ∀ k, natToBits k 0 = List.replicate k 0 := by
  intro k
  induction k with
  | zero => rfl
  | succ k ih => simp [natToBits, ih, List.replicate_succ]

theorem bytesBits_replicate_zero :
    ∀ m, bytesBits (List.replicate m 0) = List.replicate (8 * m) 0 := by
  intro m
  induction m with
  | zero => rfl
  | succ m ih =>
    rw [List.replicate_succ, bytesBits_cons, ih, natToBits_zero,
      ← List.replicate_add]
    congr 1
    omega

theorem uvlcLoopF_spec :
    ∀ (k fuel lz : Nat) (s : BitReader) (rest : List Nat), WF s → lz < 2 ^ 32 →
      bitsOf s = List.replicate k 0 ++ 1 :: rest → k + 1 ≤ fuel →
      ∃ t, uvlcLoopF fuel lz s = (some ((lz + k) % 2 ^ 32), t) ∧ WF t ∧ bitsOf t = rest ∧
        t.pos = s.pos + (k + 1) := by
  intro k
  induction k with
  | zero =>
    intro fuel lz s rest hw hlz hb hf
    cases fuel with
    | zero => omega
    | succ fuel =>
      obtain ⟨t, ht, hwt, hbt, hpt⟩ := read_bit_cons hw (by simpa using hb)
      refine ⟨t, ?_, hwt, hbt, by omega⟩
      simp only [uvlcLoopF, ht, if_pos (by omega : 0 < 1), Nat.add_zero]
      rw [Nat.mod_eq_of_lt hlz]
  | succ k ih =>
    intro fuel lz s rest hw hlz hb hf
    cases fuel with
    | zero => omega
    | succ fuel =>
      have hb' : bitsOf s = 0 :: (List.replicate k 0 ++ 1 :: rest) := by
        rw [hb, List.replicate_succ]
        rfl
      obtain ⟨t, ht, hwt, hbt, hpt⟩ := read_bit_cons hw hb'
      obtain ⟨u, hu, hwu, hbu, hpu⟩ := ih fuel ((lz + 1) % 2 ^ 32) t rest hwt
        (Nat.mod_lt _ (by omega)) hbt (by omega)
      refine ⟨u, ?_, hwu, hbu, by omega⟩
      simp only [uvlcLoopF, ht, if_neg (by omega : ¬0 < 0), hu]
      congr 2
      omega

/-- C5 (amended: the saturation count is bounded by `2^31`, where the `i32`
counter is still nonnegative).  First conjunct (round-trip): every
`v ≤ 2^32 - 2` is decoded back from its encoding — `leading_zeros` zero
bits, the consumed (but uncounted) one-bit terminator, then the
`leading_zeros`-bit suffix — returning `Some (suffix + 2^leading_zeros - 1)`.
Second conjunct (saturation): a code whose zero count `k` satisfies
`32 ≤ k < 2^31` returns the sentinel `2^32 - 1` without reading any suffix
bits (only the zeros and the terminator are consumed).  For `k ≥ 2^31` the
`i32` counter has wrapped negative and the program aborts instead
(`uvlc_abort`, `c5_counterexample`). -/
theorem c5_uvlc_decodes :
    (∀ (v : Nat), v ≤ 2 ^ 32 - 2 → ∀ (s : BitReader) (rest : List Nat), WF s →
      bitsOf s = uvlcEncode v ++ rest →
      ∃ t, uvlc s = .ok (some v, t) ∧ bitsOf t = rest ∧
        t.pos = s.pos + (uvlcEncode v).length) ∧
    (∀ (k : Nat), 32 ≤ k → k < 2 ^ 31 → ∀ (s : BitReader) (rest : List Nat), WF s →
      bitsOf s = List.replicate k 0 ++ 1 :: rest →
      ∃ t, uvlc s = .ok (some (2 ^ 32 - 1), t) ∧ bitsOf t = rest ∧
        t.pos = s.pos + (k + 1)) := by
  constructor
  · intro v hv s rest hw hb
    have hv1 : 1 ≤ v + 1 := by omega
    obtain ⟨hbl, hbr⟩ := bitLen_bounds hv1
    have hw1 : 1 ≤ bitLen (v + 1) := bitLen_pos hv1
    have hble : bitLen (v + 1) ≤ 32 := by
      by_contra hc
      have h33 : 32 ≤ bitLen (v + 1) - 1 := by omega
      have hgr : (2 : Nat) ^ 32 ≤ 2 ^ (bitLen (v + 1) - 1) :=
        Nat.pow_le_pow_right (by omega) h33
      omega
    have hlz31 : bitLen (v + 1) - 1 ≤ 31 := by omega
    have hpl : 2 ^ (bitLen (v + 1) - 1) * 2 = 2 ^ bitLen (v + 1) := two_pow_pred hw1
    have hb' : bitsOf s = List.replicate (bitLen (v + 1) - 1) 0 ++ 1 ::
        (natToBits (bitLen (v + 1) - 1) (v + 1 - 2 ^ (bitLen (v + 1) - 1)) ++ rest) := by
      rw [hb]
      simp [uvlcEncode, List.append_assoc]
    have hfuel : (bitLen (v + 1) - 1) + 1 ≤ 8 * s.input.length + s.bpos + 1 := by
      have hlen := bitsOf_length s
      rw [hb'] at hlen
      simp [List.length_append, List.length_replicate] at hlen
      omega
    obtain ⟨t1, hloop, hwt1, hbt1, hpt1⟩ := uvlcLoopF_spec (bitLen (v + 1) - 1)
      (8 * s.input.length + s.bpos + 1) 0 s _ hw (by omega) hb' hfuel
    rw [Nat.zero_add, Nat.mod_eq_of_lt (by omega : bitLen (v + 1) - 1 < 2 ^ 32)] at hloop
    have hsuffix : v + 1 - 2 ^ (bitLen (v + 1) - 1) < 2 ^ (bitLen (v + 1) - 1) := by omega
    obtain ⟨t2, hf, hwt2, hbt2, hpt2⟩ := f_spec hwt1 hbt1 (natToBits_length _ _) (by omega)
    rw [bitsVal_natToBits, Nat.mod_eq_of_lt hsuffix] at hf
    have hti : toI32 (bitLen (v + 1) - 1) = ((bitLen (v + 1) - 1 : Nat) : Int) :=
      toI32_of_lt (by omega)
    have hiu : i32AsUsize ((bitLen (v + 1) - 1 : Nat) : Int) = bitLen (v + 1) - 1 :=
      i32AsUsize_ofNat (by omega)
    refine ⟨t2, ?_, hbt2, ?_⟩
    · simp only [uvlc, hloop, hti, hiu]
      rw [if_neg (by omega : ¬(32 : Int) ≤ ((bitLen (v + 1) - 1 : Nat) : Int)),
        if_pos (by omega : bitLen (v + 1) - 1 ≤ 32), hf]
      have hval : (v + 1 - 2 ^ (bitLen (v + 1) - 1)) +
          (1 <<< (bitLen (v + 1) - 1)) - 1 = v := by
        rw [Nat.shiftLeft_eq, one_mul]
        omega
      simp only [hval]
    · rw [hpt2, hpt1]
      simp only [uvlcEncode, List.length_append, List.length_cons, List.length_replicate,
        natToBits_length]
      omega
  · intro k hk hk31 s rest hw hb
    have hfuel : k + 1 ≤ 8 * s.input.length + s.bpos + 1 := by
      have hlen := bitsOf_length s
      rw [hb] at hlen
      simp [List.length_append, List.length_replicate] at hlen
      omega
    obtain ⟨t1, hloop, hwt1, hbt1, hpt1⟩ := uvlcLoopF_spec k
      (8 * s.input.length + s.bpos + 1) 0 s rest hw (by omega) hb hfuel
    rw [Nat.zero_add, Nat.mod_eq_of_lt (by omega : k < 2 ^ 32)] at hloop
    refine ⟨t1, ?_, hbt1, by omega⟩
    simp only [uvlc, hloop, toI32_of_lt hk31]
    rw [if_pos (by omega : (32 : Int) ≤ (k : Int))]
    have hsat : (1 <<< 32) - 1 = 2 ^ 32 - 1 := by decide
    rw [hsat]

/-- A zero count of `2^31` or more (but below `2^32`, i.e. before the `i32`
counter aliases back into small values) wraps `leading_zeros` negative: the
`>= 32` test fails and `leading_zeros as usize` sign-extends to a huge
value, so `f`'s `assert!(nbit <= 32)` aborts the process after the zeros
and the terminator have been consumed. -/
theorem uvlc_abort :
    ∀ (k : Nat), 2 ^ 31 ≤ k → k < 2 ^ 32 → ∀ (s : BitReader) (rest : List Nat), WF s →
      bitsOf s = List.replicate k 0 ++ 1 :: rest →
      ∃ t, uvlc s = .error t ∧ WF t ∧ bitsOf t = rest ∧ t.pos = s.pos + (k + 1) := by
  intro k hk31 hk32 s rest hw hb
  have hfuel : k + 1 ≤ 8 * s.input.length + s.bpos + 1 := by
    have hlen := bitsOf_length s
    rw [hb] at hlen
    simp [List.length_append, List.length_replicate] at hlen
    omega
  obtain ⟨t1, hloop, hwt1, hbt1, hpt1⟩ := uvlcLoopF_spec k
    (8 * s.input.length + s.bpos + 1) 0 s rest hw (by omega) hb hfuel
  rw [Nat.zero_add, Nat.mod_eq_of_lt hk32] at hloop
  refine ⟨t1, ?_, hwt1, hbt1, by omega⟩
  simp only [uvlc, hloop, toI32_of_ge hk31, i32AsUsize_neg hk31 hk32]
  rw [if_neg (by omega : ¬(32 : Int) ≤ (k : Int) - 2 ^ 32),
    if_neg (by omega : ¬k + 2 ^ 64 - 2 ^ 32 ≤ 32)]

/-- Counterexample to C5 as stated (saturation for every count `≥ 32`): a
stream of `2^28` zero bytes and then `0x80` carries `2^31` leading zeros and
a terminator, a count at which the claim promises `Some(2^32 - 1)`; the
reader instead aborts (`.error`, so `toOption` is `none`): the wrapped
`i32` counter is negative, and its sign-extended `usize` cast trips `f`'s
`assert!(nbit <= 32)`. -/
theorem c5_counterexample :
    bitsOf (new (List.replicate (2 ^ 28) 0 ++ [128])) =
      List.replicate (2 ^ 31) 0 ++ 1 :: List.replicate 7 0 ∧
    (uvlc (new (List.replicate (2 ^ 28) 0 ++ [128]))).toOption = none := by
  have hbits : bitsOf (new (List.replicate (2 ^ 28) 0 ++ [128])) =
      List.replicate (2 ^ 31) 0 ++ 1 :: List.replicate 7 0 := by
    rw [bitsOf_new, bytesBits]
    rw [List.flatMap_append, ← bytesBits, ← bytesBits, bytesBits_replicate_zero]
    have h1 : bytesBits [128] = 1 :: List.replicate 7 0 := by decide
    have h2 : 8 * 2 ^ 28 = 2 ^ 31 := by norm_num
    rw [h1, h2]
  have hwf : WF (new (List.replicate (2 ^ 28) 0 ++ [128])) := by
    refine WF_new ?_
    intro b hb
    rcases List.mem_append.1 hb with h | h
    · rw [List.eq_of_mem_replicate h]
      omega
    · have hb128 : b = 128 := by simpa using h
      omega
  obtain ⟨t, hu, _, _, _⟩ := uvlc_abort (2 ^ 31) (le_refl _) (by norm_num) _ _ hwf hbits
  exact ⟨hbits, by rw [hu]; rfl⟩

/-- Witness for C5: the spec's own example `00101` decodes to 4, and a code
with exactly 32 leading zeros saturates to `2^32 - 1`. -/
theorem c5_witness :
    (∃ t, uvlc (new [40]) = .ok (some 4, t) ∧ bitsOf t = [0, 0, 0] ∧ t.pos = 5) ∧
    (∃ t, uvlc (new [0, 0, 0, 0, 128]) = .ok (some (2 ^ 32 - 1), t) ∧
      bitsOf t = [0, 0, 0, 0, 0, 0, 0] ∧ t.pos = 33) := by
  constructor
  · obtain ⟨t, hu, hbt, hpt⟩ := c5_uvlc_decodes.1 4 (by norm_num) (new [40]) [0, 0, 0]
      (WF_new (by decide)) (by decide)
    refine ⟨t, hu, hbt, ?_⟩
    rw [hpt]
    decide
  · obtain ⟨t, hu, hbt, hpt⟩ := c5_uvlc_decodes.2 32 (by omega) (by norm_num)
      (new [0, 0, 0, 0, 128]) [0, 0, 0, 0, 0, 0, 0] (WF_new (by decide)) (by decide)
    refine ⟨t, hu, hbt, ?_⟩
    rw [hpt]
    decide

/-! ## Claim C6: `le` -/

theorem leGo_spec {l₂ : List Nat} :
    ∀ (bs : List Nat) (i tacc : Nat) (s : BitReader), WF s →
      bitsOf s = bytesBits bs ++ l₂ → (∀ b ∈ bs, b < 256) → i + bs.length ≤ 4 →
      tacc < 2 ^ (8 * i) →
      ∃ t, leGo bs.length i tacc s = .ok (tacc + 2 ^ (8 * i) * leVal bs, t) ∧ WF t ∧
        bitsOf t = l₂ ∧ t.pos = s.pos + 8 * bs.length := by
  intro bs
  induction bs with
  | nil =>
    intro i tacc s hw hb _ _ _
    rw [bytesBits_nil, List.nil_append] at hb
    exact ⟨s, by simp [leGo, leVal], hw, hb, by simp⟩
  | cons b bs ih =>
    intro i tacc s hw hb hbytes hlen hacc
    have hblt : b < 256 := hbytes b (List.mem_cons_self _ _)
    have hi3 : i ≤ 3 := by
      have := List.length_cons b bs
      simp [List.length_cons] at hlen
      omega
    rw [bytesBits_cons, List.append_assoc] at hb
    obtain ⟨t1, hf, hwt1, hbt1, hpt1⟩ := f_spec hw hb (natToBits_length _ _) (by omega)
    rw [bitsVal_natToBits, Nat.mod_eq_of_lt (by omega : b < 2 ^ 8)] at hf
    have hpow256 : (2 : Nat) ^ (8 * (i + 1)) = 2 ^ (8 * i) * 256 := by
      have h8 : 8 * (i + 1) = 8 * i + 8 := by ring
      rw [h8, pow_add]
      norm_num
    have hpowle : (2 : Nat) ^ (8 * (i + 1)) ≤ 2 ^ 32 := by
      have : 8 * (i + 1) ≤ 32 := by omega
      exact Nat.pow_le_pow_right (by omega) this
    have hmask : i * 8 % 32 = 8 * i := by
      have : i * 8 < 32 := by omega
      rw [Nat.mod_eq_of_lt this]
      ring
    have hshift : b <<< (i * 8 % 32) = b * 2 ^ (8 * i) := by
      rw [hmask, Nat.shiftLeft_eq]
    have hacc' : (tacc + b <<< (i * 8 % 32) % 2 ^ 32) % 2 ^ 32
        = tacc + b * 2 ^ (8 * i) := by
      rw [hshift]
      have hb32 : b * 2 ^ (8 * i) < 2 ^ 32 := by
        have hp : 0 < (2 : Nat) ^ (8 * i) := by positivity
        have : b * 2 ^ (8 * i) < 256 * 2 ^ (8 * i) := (Nat.mul_lt_mul_right hp).2 hblt
        omega
      rw [Nat.mod_eq_of_lt hb32]
      have hsum : tacc + b * 2 ^ (8 * i) < 2 ^ 32 := by
        have : b * 2 ^ (8 * i) ≤ 255 * 2 ^ (8 * i) := Nat.mul_le_mul_right _ (by omega)
        omega
      exact Nat.mod_eq_of_lt hsum
    have haccnew : tacc + b * 2 ^ (8 * i) < 2 ^ (8 * (i + 1)) := by
      have : b * 2 ^ (8 * i) ≤ 255 * 2 ^ (8 * i) := Nat.mul_le_mul_right _ (by omega)
      omega
    obtain ⟨t2, hgo, hwt2, hbt2, hpt2⟩ := ih (i + 1) (tacc + b * 2 ^ (8 * i)) t1 hwt1 hbt1
      (fun x hx => hbytes x (List.mem_cons_of_mem _ hx)) (by simp at hlen ⊢; omega) haccnew
    refine ⟨t2, ?_, hwt2, hbt2, ?_⟩
    · show leGo (bs.length + 1) i tacc s = _
      simp only [leGo, hf, hacc', hgo]
      congr 2
      show tacc + b * 2 ^ (8 * i) + 2 ^ (8 * (i + 1)) * leVal bs
        = tacc + 2 ^ (8 * i) * leVal (b :: bs)
      rw [hpow256, leVal]
      ring
    · rw [hpt2, hpt1]
      simp only [List.length_cons]
      ring

/-- C6 (amended to `n ≤ 4`): `le n` reads `n` whole bytes in stream order
and places byte `i` at bit offset `8 * i` of the accumulator (least
significant byte first).  For `n ≥ 5` the `u32` shift `byte << (i*8)` is
masked and the byte cannot be placed at offset `≥ 32` of the 32-bit
accumulator (`c6_counterexample`). -/
theorem c6_le_little_endian (bs : List Nat) (hlen : bs.length ≤ 4)
    (hbytes : ∀ b ∈ bs, b < 256) (s : BitReader) (l₂ : List Nat) (hw : WF s)
    (hb : bitsOf s = bytesBits bs ++ l₂) :
    ∃ t, le bs.length s = .ok (leVal bs, t) ∧ bitsOf t = l₂ ∧
      t.pos = s.pos + 8 * bs.length := by
  obtain ⟨t, hgo, hwt, hbt, hpt⟩ := leGo_spec bs 0 0 s hw hb hbytes (by omega) (by norm_num)
  refine ⟨t, ?_, hbt, hpt⟩
  rw [le, hgo]
  norm_num

/-- Counterexample to C6 as stated (placement at offset `i*8` for every
byte index): for `n = 5` the fifth byte would sit at bit offset 32
(value `2^32`), but the code's masked 32-bit shift adds it at offset 0
instead, so `le 5` over `[0,0,0,0,1]` returns 1 — neither `2^32` nor its
32-bit truncation `0`. -/
theorem c6_counterexample :
    (le 5 (new [0, 0, 0, 0, 1])).toOption.map Prod.fst = some 1 ∧
    leVal [0, 0, 0, 0, 1] = 2 ^ 32 ∧ (1 : Nat) ≠ 2 ^ 32 ∧ (1 : Nat) ≠ 2 ^ 32 % 2 ^ 32 := by
  refine ⟨by decide, by decide, by decide, by decide⟩

/-- Witness for C6: the spec's example `le::<u32>(4)` over
`[0x01, 0x02, 0x03, 0x04]` yields `0x04030201`. -/
theorem c6_witness :
    ∃ t, le 4 (new [1, 2, 3, 4]) = .ok (0x04030201, t) ∧ bitsOf t = [] ∧ t.pos = 32 := by
  have hb : bitsOf (new [1, 2, 3, 4]) = bytesBits [1, 2, 3, 4] ++ [] := by
    rw [bitsOf_new, List.append_nil]
  obtain ⟨t, hle, hbt, hpt⟩ := c6_le_little_endian [1, 2, 3, 4] (by norm_num)
    (by decide) (new [1, 2, 3, 4]) [] (WF_new (by decide)) hb
  have hval : leVal [1, 2, 3, 4] = 0x04030201 := by decide
  rw [hval] at hle
  refine ⟨t, hle, hbt, ?_⟩
  rw [hpt]
  decide

/-! ## Claim C1: behaviour on an exhausted source -/

/-- C1 evidence: on a fully exhausted source every primitive that needs a
bit returns `none` — except `le`, whose `self.f(8).unwrap()` panics (the
`.error` value models the abort) instead of propagating the `None` that the
spec's uniform propagation policy promises. -/
theorem c1_exhausted_le_panics :
    (read_bit (new [])).1 = none ∧ (skip 1 (new [])).1 = none ∧
    (f 1 (new [])).1 = none ∧ (su 1 (new [])).1 = none ∧
    (ns 2 (new [])).1 = none ∧ uvlc (new []) = .ok (none, new []) ∧
    le 1 (new []) = .error (new []) := by
  exact ⟨by decide, by decide, by decide, by decide, by decide, rfl, rfl⟩

/-! ## Claim C8: the position counter

Every primitive consumes bits only through `read_bit`; a successful
`read_bit` consumes exactly one pending bit and advances `pos` by one, a
failed one changes nothing.  `Conserves` packages this accounting, so from a
fresh reader `pos` always equals the number of bits successfully consumed. -/

theorem conserves_refl {s : BitReader} (hw : WF s) : Conserves s s :=
  ⟨hw, rfl, le_refl _⟩

theorem conserves_trans {s t u : BitReader} (h1 : Conserves s t) (h2 : Conserves t u) :
    Conserves s u := by
  obtain ⟨hw1, he1, hl1⟩ := h1
  obtain ⟨hw2, he2, hl2⟩ := h2
  exact ⟨hw2, by omega, by omega⟩

theorem fAux_conserve : ∀ (n x : Nat) (s : BitReader), WF s → Conserves s (fAux n x s).2 := by
  intro n
  induction n with
  | zero => exact fun x s hw => conserves_refl hw
  | succ n ih =>
    intro x s hw
    have hrb := read_bit_conserve hw
    rcases hr : read_bit s with ⟨r, t⟩
    rw [hr] at hrb
    cases r with
    | none =>
      simp only [fAux, hr]
      exact hrb
    | some b =>
      simp only [fAux, hr]
      exact conserves_trans hrb (ih _ t hrb.1)

theorem f_conserve (n : Nat) (s : BitReader) (hw : WF s) : Conserves s (f n s).2 :=
  fAux_conserve n 0 s hw

theorem skip_conserve : ∀ (n : Nat) (s : BitReader), WF s → Conserves s (skip n s).2 := by
  intro n
  induction n with
  | zero => exact fun s hw => conserves_refl hw
  | succ n ih =>
    intro s hw
    have hrb := read_bit_conserve hw
    rcases hr : read_bit s with ⟨r, t⟩
    rw [hr] at hrb
    cases r with
    | none =>
      simp only [skip, hr]
      exact hrb
    | some b =>
      simp only [skip, hr]
      exact conserves_trans hrb (ih t hrb.1)

theorem su_conserve (n : Nat) (s : BitReader) (hw : WF s) : Conserves s (su n s).2 := by
  have hf := f_conserve n s hw
  rcases hr : f n s with ⟨r, t⟩
  rw [hr] at hf
  cases r with
  | none => simp only [su, hr]; exact hf
  | some x =>
    simp only [su, hr]
    split
    · exact hf
    · exact hf

theorem ns_conserve (n : Nat) (s : BitReader) (hw : WF s) : Conserves s (ns n s).2 := by
  have hf := f_conserve (floor_log2 n + 1 - 1) s hw
  rcases hr : f (floor_log2 n + 1 - 1) s with ⟨r, t⟩
  rw [hr] at hf
  cases r with
  | none => simp only [ns, hr]; exact hf
  | some v =>
    simp only [ns, hr]
    split
    · exact hf
    · have hf2 := f_conserve 1 t hf.1
      rcases hr2 : f 1 t with ⟨r2, u⟩
      rw [hr2] at hf2
      cases r2 with
      | none => exact conserves_trans hf hf2
      | some extra => exact conserves_trans hf hf2

theorem uvlcLoopF_conserve :
    ∀ (fuel lz : Nat) (s : BitReader), WF s → Conserves s (uvlcLoopF fuel lz s).2 := by
  intro fuel
  induction fuel with
  | zero => exact fun lz s hw => conserves_refl hw
  | succ fuel ih =>
    intro lz s hw
    have hrb := read_bit_conserve hw
    rcases hr : read_bit s with ⟨r, t⟩
    rw [hr] at hrb
    cases r with
    | none => simp only [uvlcLoopF, hr]; exact hrb
    | some b =>
      simp only [uvlcLoopF, hr]
      split
      · exact hrb
      · exact conserves_trans hrb (ih ((lz + 1) % 2 ^ 32) t hrb.1)

theorem uvlc_conserve (s : BitReader) (hw : WF s) :
    Conserves s (match uvlc s with | .ok (_, t) => t | .error t => t) := by
  have hl := uvlcLoopF_conserve (8 * s.input.length + s.bpos + 1) 0 s hw
  rcases hr : uvlcLoopF (8 * s.input.length + s.bpos + 1) 0 s with ⟨r, t⟩
  rw [hr] at hl
  replace hl : Conserves s t := hl
  cases r with
  | none => simp only [uvlc, hr]; exact hl
  | some lz =>
    simp only [uvlc, hr]
    by_cases h1 : (32 : Int) ≤ toI32 lz
    · rw [if_pos h1]
      exact hl
    · rw [if_neg h1]
      by_cases h2 : i32AsUsize (toI32 lz) ≤ 32
      · rw [if_pos h2]
        have hf := f_conserve (i32AsUsize (toI32 lz)) t hl.1
        rcases hr2 : f (i32AsUsize (toI32 lz)) t with ⟨r2, u⟩
        rw [hr2] at hf
        replace hf : Conserves t u := hf
        cases r2 with
        | none => exact conserves_trans hl hf
        | some value => exact conserves_trans hl hf
      · rw [if_neg h2]
        exact hl

theorem leGo_conserve :
    ∀ (k i tacc : Nat) (s : BitReader), WF s →
      Conserves s (match leGo k i tacc s with | .ok (_, t) => t | .error t => t) := by
  intro k
  induction k with
  | zero => exact fun i tacc s hw => conserves_refl hw
  | succ k ih =>
    intro i tacc s hw
    have hf := f_conserve 8 s hw
    rcases hr : f 8 s with ⟨r, t⟩
    rw [hr] at hf
    cases r with
    | none => simp only [leGo, hr]; exact hf
    | some byte =>
      simp only [leGo, hr]
      exact conserves_trans hf (ih (i + 1) _ t hf.1)

theorem stepOp_conserve (op : Op) (s : BitReader) (hw : WF s) : Conserves s (stepOp op s) := by
  cases op with
  | rb => exact read_bit_conserve hw
  | skipn n => exact skip_conserve n s hw
  | fn n => exact f_conserve n s hw
  | sun n => exact su_conserve n s hw
  | nsn n => exact ns_conserve n s hw
  | uv => exact uvlc_conserve s hw
  | len n => exact leGo_conserve n 0 0 s hw

theorem runOps_conserve :
    ∀ (ops : List Op) (s : BitReader), WF s → Conserves s (runOps ops s) := by
  intro ops
  induction ops with
  | nil => exact fun s hw => conserves_refl hw
  | cons op ops ih =>
    intro s hw
    have h1 := stepOp_conserve op s hw
    have h2 := ih (stepOp op s) h1.1
    exact conserves_trans h1 h2

/-- C8: the position counter counts exactly the successful bit reads.
First conjunct: from a fresh reader, after any sequence of operations,
`get_position` plus the number of still-pending bits equals the total bit
count — i.e. the position equals the number of bits successfully consumed.
Second conjunct: one `read_bit` advances the position by exactly 1 when it
returns a bit and by 0 when it fails, so consumed bits and successful reads
coincide.  Third conjunct: no operation ever decreases the position. -/
theorem c8_position_counts_reads :
    (∀ (bytes : List Nat), (∀ b ∈ bytes, b < 256) → ∀ (ops : List Op),
      get_position (runOps ops (new bytes)) + (bitsOf (runOps ops (new bytes))).length
        = 8 * bytes.length) ∧
    (∀ s : BitReader,
      ((read_bit s).1 = none → get_position (read_bit s).2 = get_position s) ∧
      (∀ b, (read_bit s).1 = some b → get_position (read_bit s).2 = get_position s + 1)) ∧
    (∀ (op : Op) (s : BitReader), WF s → get_position s ≤ get_position (stepOp op s)) := by
  refine ⟨?_, ?_, ?_⟩
  · intro bytes hbytes ops
    obtain ⟨_, he, _⟩ := runOps_conserve ops (new bytes) (WF_new hbytes)
    have h0 : (new bytes).pos = 0 := rfl
    have hlen : (bitsOf (new bytes)).length = 8 * bytes.length := by
      rw [bitsOf_new, bytesBits_length]
    rw [h0, hlen] at he
    simpa [get_position] using he
  · intro s
    constructor
    · intro h
      rw [get_position, get_position, read_bit_none_eq h]
    · intro b h
      rw [get_position, get_position, read_bit_pos_succ h]
  · intro op s hw
    obtain ⟨_, he, hl⟩ := stepOp_conserve op s hw
    rw [get_position, get_position]
    omega

/-- Witness for C8 at concrete inputs: an `f 3` then a `read_bit` leave the
position at 4 with 4 bits pending; a failed read on an empty reader leaves
the position at 0; a `read_bit` never decreases the position. -/
theorem c8_witness :
    get_position (runOps [Op.fn 3, Op.rb] (new [165])) +
      (bitsOf (runOps [Op.fn 3, Op.rb] (new [165]))).length = 8 ∧
    get_position (read_bit (new [])).2 = get_position (new []) ∧
    get_position (new [165]) ≤ get_position (stepOp Op.rb (new [165])) := by
  refine ⟨?_, ?_, ?_⟩
  · exact c8_position_counts_reads.1 [165] (by decide) [Op.fn 3, Op.rb]
  · exact (c8_position_counts_reads.2.1 (new [])).1 (by decide)
  · exact c8_position_counts_reads.2.2 Op.rb (new [165]) (WF_new (by decide))

end Av1
